import Mathlib

/-!
Verification of the `cayley` fixed-size generic matrix library.

The Rust `Matrix<T, N, M>` struct stores `N * M` elements in a row-major
array together with a recorded `rows`/`cols` pair.  We embed it as a
structure holding a list whose length is pinned to `N * M` (the Rust array
type guarantees this), plus the two recorded counts (which are *not*
pinned, since some constructors record counts taken from their input).

Fatal runtime failures (assertion failures, out-of-bounds indexing,
exhausted iterators) are modelled by `Option`: `none` means the Rust code
panics.
-/

/-- Shorthand for Mathlib's function matrices over `Fin` index types, fixed
before the embedding's own `Matrix` structure shadows the name. -/
abbrev MatF (N M : Nat) (A : Type) := Matrix (Fin N) (Fin M) A

/-! ### Generic list helpers -/

/-- Sequences a list of options: `some` of the list of values when every
element is `some`, otherwise `none`. -/
def optList {A : Type} : List (Option A) → Option (List A)
  | [] => some []
  | none :: _ => none
  | some a :: rest => (optList rest).map (fun l => a :: l)

theorem optList_length {A : Type} :
    ∀ {l : List (Option A)} {d : List A}, optList l = some d → d.length = l.length := by
  intro l
  induction l with
  | nil => intro d h; simp [optList] at h; simp [← h]
  | cons o rest ih =>
    intro d h
    match o with
    | none => simp [optList] at h
    | some a =>
      simp [optList] at h
      obtain ⟨l', hl', rfl⟩ := h
      simp [ih hl']

theorem optList_getElem? {A : Type} :
    ∀ {l : List (Option A)} {d : List A}, optList l = some d →
      ∀ k : Nat, l[k]? = (d[k]?).map some := by
  intro l
  induction l with
  | nil => intro d h k; simp [optList] at h; subst h; simp
  | cons o rest ih =>
    intro d h k
    match o with
    | none => simp [optList] at h
    | some a =>
      simp [optList] at h
      obtain ⟨l', hl', rfl⟩ := h
      match k with
      | 0 => simp
      | k + 1 => simpa using ih hl' k

theorem optList_isSome {A : Type} :
    ∀ {l : List (Option A)}, (∀ o ∈ l, o.isSome) → ∃ d, optList l = some d := by
  intro l
  induction l with
  | nil => intro _; exact ⟨[], rfl⟩
  | cons o rest ih =>
    intro h
    have ho : o.isSome := h o (List.mem_cons_self o rest)
    obtain ⟨a, rfl⟩ := Option.isSome_iff_exists.mp ho
    obtain ⟨d, hd⟩ := ih (fun x hx => h x (List.mem_cons_of_mem _ hx))
    exact ⟨a :: d, by simp [optList, hd]⟩

theorem optList_map_some {A B : Type} (g : A → B) :
    ∀ (l : List A), optList (l.map (fun x => some (g x))) = some (l.map g) := by
  intro l
  induction l with
  | nil => rfl
  | cons a rest ih => simp [optList, ih]

/-- Row-major traversal of an `R × C` coordinate grid, collecting optional
cell values; `none` if any cell fails.  Cell `(x, y)` ends up at linear
offset `x * C + y`. -/
def optGrid {A : Type} (R C : Nat) (f : Nat → Nat → Option A) : Option (List A) :=
  optList ((List.range (R * C)).map (fun k => f (k / C) (k % C)))

theorem grid_offset_lt {R C x y : Nat} (hx : x < R) (hy : y < C) :
    x * C + y < R * C := by
  calc x * C + y < x * C + C := by omega
  _ = (x + 1) * C := by ring
  _ ≤ R * C := Nat.mul_le_mul_right C hx

theorem grid_offset_div {C x y : Nat} (hy : y < C) : (x * C + y) / C = x := by
  have hC : 0 < C := by omega
  rw [Nat.add_comm, Nat.mul_comm x C, Nat.add_mul_div_left _ _ hC,
    Nat.div_eq_of_lt hy, Nat.zero_add]

theorem grid_offset_mod {C x y : Nat} (hy : y < C) : (x * C + y) % C = y := by
  rw [Nat.add_comm, Nat.add_mul_mod_self_right, Nat.mod_eq_of_lt hy]

theorem optGrid_length {A : Type} {R C : Nat} {f : Nat → Nat → Option A} {d : List A}
    (h : optGrid R C f = some d) : d.length = R * C := by
  have := optList_length h
  simpa using this

theorem optGrid_isSome {A : Type} {R C : Nat} {f : Nat → Nat → Option A}
    (h : ∀ x y, x < R → y < C → (f x y).isSome) : ∃ d, optGrid R C f = some d := by
  apply optList_isSome
  intro o ho
  simp only [List.mem_map, List.mem_range] at ho
  obtain ⟨k, hk, rfl⟩ := ho
  rcases Nat.eq_zero_or_pos C with hC | hC
  · subst hC; simp at hk
  · exact h _ _ (Nat.div_lt_of_lt_mul (Nat.mul_comm R C ▸ hk)) (Nat.mod_lt _ hC)

theorem optGrid_entry {A : Type} {R C : Nat} {f : Nat → Nat → Option A} {d : List A}
    (h : optGrid R C f = some d) {x y : Nat} (hx : x < R) (hy : y < C) :
    d[x * C + y]? = f x y := by
  have hk := grid_offset_lt hx hy
  have := optList_getElem? h (x * C + y)
  rw [List.getElem?_map, List.getElem?_range hk] at this
  simp only [Option.map_some'] at this
  rw [grid_offset_div hy, grid_offset_mod hy] at this
  rcases hd : d[x * C + y]? with _ | a
  · rw [hd] at this; simp at this
  · rw [hd] at this; simpa using this.symm

theorem length_foldl_set {B T : Type} (g : B → Nat) (v : B → T) :
    ∀ (l : List B) (d : List T),
      (l.foldl (fun d p => d.set (g p) (v p)) d).length = d.length := by
  intro l
  induction l with
  | nil => intro d; rfl
  | cons b rest ih => intro d; simp [List.foldl_cons, ih]

namespace Cayley

/-! ### The data model (`src/lib.rs`, `struct Matrix`) -/

/-- Embedding of the Rust struct
`Matrix<T, const N: usize, const M: usize> { data: [T; N * M], rows: usize, cols: usize }`.
The backing array always has exactly `N * M` elements (guaranteed by the
Rust array type), while `rows` and `cols` are ordinary runtime fields. -/
structure Matrix (T : Type) (N M : Nat) where
  data : List T
  hlen : data.length = N * M
  rows : Nat
  cols : Nat

/-- The data-model invariant of spec §3: the recorded counts agree with the
compile-time dimensions. -/
def WF {T : Type} {N M : Nat} (m : Matrix T N M) : Prop :=
  m.rows = N ∧ m.cols = M

instance {T : Type} {N M : Nat} (m : Matrix T N M) : Decidable (WF m) := by
  unfold WF; infer_instance

/-! ### Indexing (`Index` / `IndexMut` impls) -/

/-- Read indexing: `fn index(&self, index: (usize, usize)) -> &T`.
Asserts `index.0 < self.rows` and `index.1 < self.cols`, then reads the
backing array at linear offset `index.0 * self.cols + index.1` (which
itself panics when out of the array's range). -/
def Matrix.index {T : Type} {N M : Nat} (m : Matrix T N M) (i j : Nat) : Option T :=
  if i < m.rows then
    if j < m.cols then m.data[i * m.cols + j]?
    else none
  else none

/-- Write indexing: `fn index_mut(&mut self, index: (usize, usize)) -> &mut T`.
No row/column assertion — only the array access at
`index.0 * self.cols + index.1` can panic.  Modelled as writing `v` there. -/
def Matrix.indexMut {T : Type} {N M : Nat} (m : Matrix T N M) (i j : Nat) (v : T) :
    Option (Matrix T N M) :=
  if i * m.cols + j < m.data.length then
    some ⟨m.data.set (i * m.cols + j) v,
          by rw [List.length_set]; exact m.hlen, m.rows, m.cols⟩
  else none

/-! ### Construction -/

/-- `impl From<Vec<Vec<T>>> for Matrix<T, N, M>`.  Asserts all rows have the
length of row 0, evaluates `value[0][0]` as an allocation placeholder
(panicking on empty input), then copies the first `N * M` elements of the
flattened input (panicking if the iterator is exhausted).  The recorded
counts are taken from the *input* shape: `rows: value.len(), cols: value[0].len()`. -/
def fromVec (T : Type) (N M : Nat) (value : List (List T)) : Option (Matrix T N M) :=
  if value.all (fun row => row.length = (value.headD []).length) then
    match value with
    | [] => none
    | row0 :: _ =>
      match row0 with
      | [] => none
      | _ :: _ =>
        if h : N * M ≤ value.flatten.length then
          some ⟨value.flatten.take (N * M),
                by rw [List.length_take]; omega,
                value.length, row0.length⟩
        else none
  else none

/-- `Matrix::zeroes(r, c)`: asserts `N == r` and `M == c`, then fills with
the additive identity; records `rows: r, cols: c`. -/
def zeroes (T : Type) [Zero T] (N M : Nat) (r c : Nat) : Option (Matrix T N M) :=
  if N = r ∧ M = c then
    some ⟨List.replicate (N * M) 0, by simp, r, c⟩
  else none

/-- `Matrix::ones(r, c)`: as `zeroes` but fills with the multiplicative
identity. -/
def ones (T : Type) [One T] (N M : Nat) (r c : Nat) : Option (Matrix T N M) :=
  if N = r ∧ M = c then
    some ⟨List.replicate (N * M) 1, by simp, r, c⟩
  else none

/-- The backing data produced by `Matrix::identity(n)`: a zero-filled
`n * n` array with the diagonal offsets `i * n + i` overwritten by one. -/
def identityData (T : Type) [Zero T] [One T] (n : Nat) : List T :=
  (List.range n).foldl (fun d i => d.set (i * n + i) 1) (List.replicate (n * n) 0)

theorem identityData_length (T : Type) [Zero T] [One T] (n : Nat) :
    (identityData T n).length = n * n := by
  unfold identityData
  rw [length_foldl_set (fun i => i * n + i) (fun _ => (1 : T))]
  simp

/-- The identity matrix value (diagonal ones over a zero fill). -/
def identityMatrix (T : Type) [Zero T] [One T] (n : Nat) : Matrix T n n :=
  ⟨identityData T n, identityData_length T n, n, n⟩

/-- `Matrix::identity(size)`: builds `Matrix::zeroes(size, size)` (asserting
`size == N`) and sets every diagonal element to one. -/
def identity (T : Type) [Zero T] [One T] (N : Nat) (size : Nat) : Option (Matrix T N N) :=
  if size = N then
    some ⟨identityData T N, identityData_length T N, size, size⟩
  else none

/-- `Matrix::from_closure(r, c, func)`: builds `Matrix::zeroes(r, c)`
(asserting `r == N`, `c == M`), then overwrites cell `(x, y)` with
`func(x, y)` in row-major order over `0..N × 0..M`. -/
def fromClosure (T : Type) [Zero T] (N M : Nat) (r c : Nat) (f : Nat → Nat → T) :
    Option (Matrix T N M) :=
  if N = r ∧ M = c then
    some ⟨((List.range N).flatMap (fun x => (List.range M).map (fun y => (x, y)))).foldl
            (fun d p => d.set (p.1 * M + p.2) (f p.1 p.2)) (List.replicate (N * M) 0),
          by rw [length_foldl_set]; simp,
          r, c⟩
  else none

/-! ### Elementwise addition and subtraction -/

/-- Binary `Add`: asserts `self.rows == rhs.rows` (only the row counts!),
then sets every linear element `i` to `self.data[i] + rhs.data[i]`;
the result keeps the left operand's recorded counts. -/
def add {T Q : Type} [HAdd T Q T] {N M : Nat} (l : Matrix T N M) (r : Matrix Q N M) :
    Option (Matrix T N M) :=
  if l.rows = r.rows then
    some ⟨List.zipWith (fun a b => a + b) l.data r.data,
          by rw [List.length_zipWith, l.hlen, r.hlen, Nat.min_self], l.rows, l.cols⟩
  else none

/-- Compound `AddAssign`: mutates the left operand in place over all
`N * M` linear positions; performs no dimension check at all. -/
def addAssign {T Q : Type} [HAdd T Q T] {N M : Nat} (l : Matrix T N M) (r : Matrix Q N M) :
    Matrix T N M :=
  ⟨List.zipWith (fun a b => a + b) l.data r.data,
   by rw [List.length_zipWith, l.hlen, r.hlen, Nat.min_self], l.rows, l.cols⟩

/-- Binary `Sub`: mirror image of `add`. -/
def sub {T Q : Type} [HSub T Q T] {N M : Nat} (l : Matrix T N M) (r : Matrix Q N M) :
    Option (Matrix T N M) :=
  if l.rows = r.rows then
    some ⟨List.zipWith (fun a b => a - b) l.data r.data,
          by rw [List.length_zipWith, l.hlen, r.hlen, Nat.min_self], l.rows, l.cols⟩
  else none

/-- Compound `SubAssign`: mirror image of `addAssign`. -/
def subAssign {T Q : Type} [HSub T Q T] {N M : Nat} (l : Matrix T N M) (r : Matrix Q N M) :
    Matrix T N M :=
  ⟨List.zipWith (fun a b => a - b) l.data r.data,
   by rw [List.length_zipWith, l.hlen, r.hlen, Nat.min_self], l.rows, l.cols⟩

/-! ### Multiplication -/

/-- One output cell of `Mul::mul`: the terms `self[(x, i)] * rhs[(i, y)]`
for `i in 0..M` are collected into an array (each read is bounds-checked
against the recorded counts), then folded from `R::zero()` with `acc + val`
in ascending order of `i`. -/
def dotEntry {T Q R : Type} [HMul T Q R] [Add R] [Zero R] {N M P : Nat}
    (l : Matrix T N M) (r : Matrix Q M P) (x y : Nat) : Option R :=
  (optList ((List.range M).map
      (fun i => (l.index x i).bind (fun a => (r.index i y).map (fun b => a * b))))).map
    (fun terms => terms.foldl (fun acc val => acc + val) 0)

/-- `Mul::mul`: builds `Matrix::zeroes(N, P)` and fills every cell `(x, y)`
with its dot product; the result records `rows: N, cols: P`. -/
def mul {T Q R : Type} [HMul T Q R] [Add R] [Zero R] {N M P : Nat}
    (l : Matrix T N M) (r : Matrix Q M P) : Option (Matrix R N P) :=
  match h : optGrid N P (dotEntry l r) with
  | none => none
  | some d => some ⟨d, optGrid_length h, N, P⟩

/-! ### Transpose -/

/-- `Matrix::transpose`: builds `Matrix::zeroes(M, N)` and sets cell
`(x, y)` of the result to `self[(y, x)]` for `x in 0..M`, `y in 0..N`. -/
def transpose {T : Type} [Zero T] {N M : Nat} (m : Matrix T N M) : Option (Matrix T M N) :=
  match h : optGrid M N (fun x y => m.index y x) with
  | none => none
  | some d => some ⟨d, optGrid_length h, M, N⟩

/-! ### Submatrix extraction -/

/-- Modelled from the spec: the body of `Matrix::submatrix` is missing from
the source (`src/lib.rs` lines 405-408 contain only the two assertions
`r < self.rows` and `c < self.cols`).  Following spec §4.7, retained cell
`(x, y)` reads source cell `(x + 1 if x >= r else x, y + 1 if y >= c else y)`;
the assertions are the source's. -/
def submatrix (T : Type) {N M : Nat} (m : Matrix T N M) (r c : Nat) :
    Option (Matrix T (N - 1) (M - 1)) :=
  if r < m.rows then
    if c < m.cols then
      match h : optGrid (N - 1) (M - 1)
          (fun x y => m.index (if r ≤ x then x + 1 else x) (if c ≤ y then y + 1 else y)) with
      | none => none
      | some d => some ⟨d, optGrid_length h, N - 1, M - 1⟩
    else none
  else none

/-! ### Determinant (source version, `Matrix::determinant`) -/

/-- The determinant exactly as the source writes it: sizes 1 and 2 are the
standard formulas; size 3 is the source's inline expansion *with its sign
pattern kept verbatim* (`t1 + t2 + t3 - t4 + t5 + t6`); the recursive arm
for every other size is empty in the source (modelled as `none`). -/
def determinant {T : Type} [Add T] [Sub T] [Mul T] : {N : Nat} → Matrix T N N → Option T :=
  fun {N} m =>
  match N with
  | 1 => m.index 0 0
  | 2 => do
    let a ← m.index 0 0
    let b ← m.index 0 1
    let c ← m.index 1 0
    let d ← m.index 1 1
    some (a * d - b * c)
  | 3 => do
    let a00 ← m.index 0 0
    let a01 ← m.index 0 1
    let a02 ← m.index 0 2
    let a10 ← m.index 1 0
    let a11 ← m.index 1 1
    let a12 ← m.index 1 2
    let a20 ← m.index 2 0
    let a21 ← m.index 2 1
    let a22 ← m.index 2 2
    some (a00 * a11 * a22 + a01 * a12 * a20 + a02 * a10 * a21 -
          a02 * a11 * a20 + a01 * a10 * a22 + a00 * a12 * a21)
  | _ => none

/-- The standard rule-of-signs 3×3 cofactor expansion as the specification
states it (spec §4.8 and claim C1), over the same bounds-checked reads. -/
def det3Standard {T : Type} [Add T] [Sub T] [Mul T] (m : Matrix T 3 3) : Option T := do
  let a00 ← m.index 0 0
  let a01 ← m.index 0 1
  let a02 ← m.index 0 2
  let a10 ← m.index 1 0
  let a11 ← m.index 1 1
  let a12 ← m.index 1 2
  let a20 ← m.index 2 0
  let a21 ← m.index 2 1
  let a22 ← m.index 2 2
  some (a00 * a11 * a22 + a01 * a12 * a20 + a02 * a10 * a21 -
        a02 * a11 * a20 - a01 * a10 * a22 - a00 * a12 * a21)

/-! ### Basic lemmas about the embedding -/

theorem Matrix.ext_struct {T : Type} {N M : Nat} {m m' : Matrix T N M}
    (hd : m.data = m'.data) (hr : m.rows = m'.rows) (hc : m.cols = m'.cols) : m = m' := by
  cases m; cases m'
  simp only at hd hr hc
  subst hd; subst hr; subst hc
  rfl

/-- Element read with an explicit fallback (irrelevant in range; the code
itself never reads out of range on a well-formed matrix). -/
def Matrix.atD {T : Type} {N M : Nat} (m : Matrix T N M) (i j : Nat) (d : T) : T :=
  m.data.getD (i * m.cols + j) d

/-- Element read defaulting to zero, used by the spec-modelled algebra. -/
def Matrix.at0 {T : Type} [Zero T] {N M : Nat} (m : Matrix T N M) (i j : Nat) : T :=
  m.atD i j 0

theorem Matrix.index_eq_atD {T : Type} {N M : Nat} {m : Matrix T N M} (hm : WF m)
    {i j : Nat} (hi : i < N) (hj : j < M) (d : T) :
    m.index i j = some (m.atD i j d) := by
  obtain ⟨hr, hc⟩ := hm
  have hk : i * M + j < m.data.length := by
    rw [m.hlen]; exact grid_offset_lt hi hj
  simp [Matrix.index, Matrix.atD, hr, hc, hi, hj, List.getD_eq_getElem?_getD,
    List.getElem?_eq_getElem hk]

theorem Matrix.index_none_iff {T : Type} {N M : Nat} {m : Matrix T N M} (hm : WF m)
    (i j : Nat) : m.index i j = none ↔ m.rows ≤ i ∨ m.cols ≤ j := by
  obtain ⟨hr, hc⟩ := hm
  constructor
  · intro h
    by_contra hcon
    push_neg at hcon
    obtain ⟨hi, hj⟩ := hcon
    unfold Matrix.index at h
    rw [if_pos (by omega), if_pos (by omega)] at h
    have hk : i * m.cols + j < m.data.length := by
      rw [m.hlen, hc]
      exact grid_offset_lt (show i < N by omega) (show j < M by omega)
    rw [List.getElem?_eq_getElem hk] at h
    exact Option.noConfusion h
  · intro h
    unfold Matrix.index
    rcases h with h | h
    · rw [if_neg (by omega)]
    · by_cases hi : i < m.rows
      · rw [if_pos hi, if_neg (by omega)]
      · rw [if_neg hi]

theorem identityData_partial_getElem (T : Type) [Zero T] [One T] (n : Nat) :
    ∀ (mc : Nat), mc ≤ n → ∀ x y, x < n → y < n →
      ((List.range mc).foldl (fun d i => d.set (i * n + i) (1 : T))
          (List.replicate (n * n) 0))[x * n + y]? =
        some (if x = y ∧ x < mc then 1 else 0) := by
  intro mc
  induction mc with
  | zero =>
    intro _ x y hx hy
    rw [List.range_zero, List.foldl_nil, if_neg (by omega),
      List.getElem?_replicate_of_lt (grid_offset_lt hx hy)]
  | succ mc ih =>
    intro hmc x y hx hy
    rw [List.range_succ, List.foldl_append, List.foldl_cons, List.foldl_nil]
    have hmcn : mc < n := by omega
    by_cases hxy : x * n + y = mc * n + mc
    · have hxm : x = mc := by
        have := grid_offset_div (C := n) (x := x) hy
        rw [hxy, grid_offset_div hmcn] at this
        omega
      have hym : y = mc := by
        have := grid_offset_mod (C := n) (x := x) hy
        rw [hxy, grid_offset_mod hmcn] at this
        omega
      have hlt : mc * n + mc <
          ((List.range mc).foldl (fun d i => d.set (i * n + i) (1 : T))
            (List.replicate (n * n) 0)).length := by
        rw [length_foldl_set, List.length_replicate]
        exact grid_offset_lt hmcn hmcn
      rw [hxy, List.getElem?_set_self hlt, if_pos (by omega)]
    · rw [List.getElem?_set_ne (fun h => hxy h.symm), ih (by omega) x y hx hy]
      have heq : (x = y ∧ x < mc + 1) ↔ (x = y ∧ x < mc) := by
        constructor
        · rintro ⟨rfl, h⟩
          refine ⟨rfl, ?_⟩
          rcases Nat.lt_succ_iff_lt_or_eq.mp h with h' | h'
          · exact h'
          · exact absurd (by rw [h']) hxy
        · rintro ⟨rfl, h⟩; exact ⟨rfl, by omega⟩
      exact congrArg some (if_congr heq rfl rfl).symm

theorem identityData_getElem (T : Type) [Zero T] [One T] (n : Nat)
    {x y : Nat} (hx : x < n) (hy : y < n) :
    (identityData T n)[x * n + y]? = some (if x = y then 1 else 0) := by
  unfold identityData
  rw [identityData_partial_getElem T n n (Nat.le_refl n) x y hx hy]
  have heq : (x = y ∧ x < n) ↔ (x = y) := ⟨fun h => h.1, fun h => ⟨h, hx⟩⟩
  exact congrArg some (if_congr heq rfl rfl)

theorem foldl_range_add_eq_sum {B : Type} [AddCommMonoid B] (g : Nat → B) :
    ∀ (M : Nat), (List.range M).foldl (fun acc i => acc + g i) 0 =
      ∑ i ∈ Finset.range M, g i := by
  intro M
  induction M with
  | zero => simp
  | succ M ih =>
    rw [List.range_succ, List.foldl_append, List.foldl_cons, List.foldl_nil,
      ih, Finset.sum_range_succ]

/-! ### Spec-modelled algebra (determinant recursion and inverse)

The source's `Matrix::determinant` has an empty recursive arm and a
defective size-3 arm, and `Matrix::inverse`'s computed branch is `todo!()`.
The definitions below are therefore modelled from the spec (§4.8, §4.9),
not from the source: unified first-row cofactor expansion and the adjugate
method. -/

/-- The retained-to-source coordinate map of spec §4.7:
`x + 1 if x >= excluded else x`. -/
def skip (r x : Nat) : Nat := if r ≤ x then x + 1 else x

/-- Modelled from the spec: a total submatrix for the cofactor recursion
(§4.7/§4.8) — the source's `submatrix` body is missing.  Cell `(x, y)` of
the result reads cell `(skip r x, skip c y)` of the input. -/
def minor {A : Type} [Zero A] {n : Nat} (m : Matrix A (n + 1) (n + 1)) (r c : Nat) :
    Matrix A n n :=
  ⟨(List.range (n * n)).map (fun k => m.at0 (skip r (k / n)) (skip c (k % n))),
   by simp, n, n⟩

/-- Modelled from the spec: `Matrix::determinant` corrected and completed
per §4.8 — recursive cofactor expansion along the first row, with the
size-0 determinant taken as one (making size 1 the spec's base case). -/
def detSpec {A : Type} [CommRing A] : (n : Nat) → Matrix A n n → A
  | 0, _ => 1
  | n + 1, m =>
    ∑ j : Fin (n + 1), (-1) ^ (j : Nat) * m.at0 0 j * detSpec n (minor m 0 j)

/-- Modelled from the spec: entry `(i, j)` of the adjugate (§4.9), i.e.
cofactor `(j, i)`: `(-1)^(j+i)` times the minor determinant excluding row
`j` and column `i`. -/
def adjEntry {A : Type} [CommRing A] {n : Nat} (m : Matrix A (n + 1) (n + 1))
    (i j : Nat) : A :=
  (-1) ^ (j + i) * detSpec n (minor m j i)

/-- Modelled from the spec: `Matrix::inverse` completed per §4.9 — `none`
when the determinant equals the additive identity, otherwise the adjugate
with every element divided by the determinant. -/
def inverse {A : Type} [Field A] [DecidableEq A] :
    {n : Nat} → Matrix A n n → Option (Matrix A n n)
  | 0, m => if detSpec 0 m = 0 then none else some ⟨[], by simp, 0, 0⟩
  | n + 1, m =>
    if detSpec (n + 1) m = 0 then none
    else
      some ⟨(List.range ((n + 1) * (n + 1))).map
              (fun k => adjEntry m (k / (n + 1)) (k % (n + 1)) / detSpec (n + 1) m),
            by simp, n + 1, n + 1⟩

end Cayley

/-! ### Bridge to Mathlib matrices

`Cayley.toMat` reads a `Cayley.Matrix` as a Mathlib `Matrix (Fin N) (Fin M)`;
the spec-modelled determinant, adjugate and inverse are then related to
Mathlib's, so that `Matrix.mul_adjugate` settles the inverse claim. -/

/-- View of the embedded matrix as a Mathlib matrix (entry `(i, j)` is the
row-major element at offset `i * cols + j`). -/
def Cayley.toMat {A : Type} [Zero A] {N M : Nat} (m : Cayley.Matrix A N M) :
    MatF N M A :=
  Matrix.of (fun i j => m.at0 i j)

theorem Cayley.toMat_apply {A : Type} [Zero A] {N M : Nat} (m : Cayley.Matrix A N M)
    (i : Fin N) (j : Fin M) : Cayley.toMat m i j = m.at0 i j := rfl

theorem Cayley.minor_at0 {A : Type} [Zero A] {n : Nat} (m : Cayley.Matrix A (n + 1) (n + 1))
    (r c i j : Nat) (hi : i < n) (hj : j < n) :
    (Cayley.minor m r c).at0 i j = m.at0 (Cayley.skip r i) (Cayley.skip c j) := by
  show ((Cayley.minor m r c).data.getD (i * (Cayley.minor m r c).cols + j) 0) = _
  have hcols : (Cayley.minor m r c).cols = n := rfl
  have hdata : (Cayley.minor m r c).data =
      (List.range (n * n)).map (fun k => m.at0 (Cayley.skip r (k / n)) (Cayley.skip c (k % n))) :=
    rfl
  rw [hcols, hdata, List.getD_eq_getElem?_getD, List.getElem?_map,
    List.getElem?_range (grid_offset_lt hi hj), Option.map_some',
    grid_offset_div hj, grid_offset_mod hj, Option.getD_some]

theorem Fin.val_succAbove' {n : Nat} (p : Fin (n + 1)) (i : Fin n) :
    ((p.succAbove i : Fin (n + 1)) : Nat) = Cayley.skip p i := by
  unfold Cayley.skip
  rcases Nat.lt_or_ge (i : Nat) (p : Nat) with h | h
  · rw [Fin.succAbove_of_castSucc_lt p i (by simp [Fin.lt_def, h]), if_neg (by omega)]
    simp
  · rw [Fin.succAbove_of_le_castSucc p i (by simp [Fin.le_def, h]), if_pos h]
    simp

theorem Cayley.toMat_minor {A : Type} [Zero A] {n : Nat}
    (m : Cayley.Matrix A (n + 1) (n + 1)) (r c : Fin (n + 1)) :
    Cayley.toMat (Cayley.minor m (r : Nat) (c : Nat)) =
      (Cayley.toMat m).submatrix r.succAbove c.succAbove := by
  ext i j
  rw [Matrix.submatrix_apply, Cayley.toMat_apply, Cayley.toMat_apply,
    Cayley.minor_at0 m r c i j i.isLt j.isLt, Fin.val_succAbove', Fin.val_succAbove']

theorem Cayley.detSpec_eq_det {A : Type} [CommRing A] :
    ∀ (n : Nat) (m : Cayley.Matrix A n n), Cayley.detSpec n m = (Cayley.toMat m).det := by
  intro n
  induction n with
  | zero => intro m; rw [Cayley.detSpec, Matrix.det_fin_zero]
  | succ n ih =>
    intro m
    rw [Cayley.detSpec, Matrix.det_succ_row_zero]
    apply Finset.sum_congr rfl
    intro j _
    have hm := Cayley.toMat_minor m (0 : Fin (n + 1)) j
    rw [Fin.val_zero] at hm
    rw [ih, hm, Fin.succAbove_zero]
    congr 2

theorem Cayley.adjEntry_eq_adjugate {A : Type} [CommRing A] {n : Nat}
    (m : Cayley.Matrix A (n + 1) (n + 1)) (i j : Fin (n + 1)) :
    Cayley.adjEntry m (i : Nat) (j : Nat) = (Cayley.toMat m).adjugate i j := by
  rw [Matrix.adjugate_fin_succ_eq_det_submatrix]
  unfold Cayley.adjEntry
  rw [Cayley.detSpec_eq_det, Cayley.toMat_minor m j i]

/-! ### Multiplication: code refinement and bridge -/

theorem Cayley.dotEntry_eq {T Q R : Type} [HMul T Q R] [Add R] [Zero R] {N M P : Nat}
    {l : Cayley.Matrix T N M} {r : Cayley.Matrix Q M P} (hl : Cayley.WF l) (hr : Cayley.WF r)
    {x y : Nat} (hx : x < N) (hy : y < P) (dT : T) (dQ : Q) :
    Cayley.dotEntry l r x y =
      some ((List.range M).foldl (fun acc i => acc + l.atD x i dT * r.atD i y dQ) 0) := by
  unfold Cayley.dotEntry
  have hmap : (List.range M).map
        (fun i => (l.index x i).bind fun a => (r.index i y).map fun b => a * b) =
      (List.range M).map (fun i => some (l.atD x i dT * r.atD i y dQ)) := by
    apply List.map_congr_left
    intro i hi
    rw [List.mem_range] at hi
    rw [Cayley.Matrix.index_eq_atD hl hx hi dT, Cayley.Matrix.index_eq_atD hr hi hy dQ]
    rfl
  rw [hmap, optList_map_some (fun i => l.atD x i dT * r.atD i y dQ) (List.range M)]
  simp only [Option.map_some']
  rw [List.foldl_map]

theorem Cayley.mul_eq_some {T Q R : Type} [HMul T Q R] [Add R] [Zero R] {N M P : Nat}
    (l : Cayley.Matrix T N M) (r : Cayley.Matrix Q M P) (hl : Cayley.WF l) (hr : Cayley.WF r) :
    ∃ m, Cayley.mul l r = some m ∧ Cayley.WF m ∧
      ∀ x y, x < N → y < P → ∀ (dT : T) (dQ : Q),
        m.index x y =
          some ((List.range M).foldl (fun acc i => acc + l.atD x i dT * r.atD i y dQ) 0) := by
  have hsome : ∀ x y, x < N → y < P → (Cayley.dotEntry l r x y).isSome := by
    intro x y hx hy
    rcases Nat.eq_zero_or_pos M with hM | hM
    · subst hM
      simp [Cayley.dotEntry, optList]
    · have hlT : 0 < l.data.length := by
        rw [l.hlen]; exact Nat.mul_pos (by omega) hM
      have hrQ : 0 < r.data.length := by
        rw [r.hlen]; exact Nat.mul_pos hM (by omega)
      rw [Cayley.dotEntry_eq hl hr hx hy (l.data.get ⟨0, hlT⟩) (r.data.get ⟨0, hrQ⟩)]
      rfl
  obtain ⟨d, hd⟩ := optGrid_isSome hsome
  refine ⟨⟨d, optGrid_length hd, N, P⟩, ?_, ⟨rfl, rfl⟩, ?_⟩
  · unfold Cayley.mul
    split
    · rename_i heq
      rw [hd] at heq
      exact Option.noConfusion heq
    · rename_i d' heq
      rw [hd] at heq
      obtain rfl : d' = d := (Option.some.injEq _ _).mp heq.symm
      rfl
  · intro x y hx hy dT dQ
    have hidx : (⟨d, optGrid_length hd, N, P⟩ : Cayley.Matrix R N P).index x y =
        d[x * P + y]? := by
      simp [Cayley.Matrix.index, hx, hy]
    rw [hidx, optGrid_entry hd hx hy, Cayley.dotEntry_eq hl hr hx hy dT dQ]

theorem Cayley.mul_toMat {A : Type} [NonUnitalNonAssocSemiring A] {N M P : Nat}
    (l : Cayley.Matrix A N M) (r : Cayley.Matrix A M P) (hl : Cayley.WF l) (hr : Cayley.WF r) :
    ∃ m, Cayley.mul l r = some m ∧ Cayley.WF m ∧
      Cayley.toMat m = Cayley.toMat l * Cayley.toMat r := by
  obtain ⟨m, hm, hwf, hent⟩ := Cayley.mul_eq_some l r hl hr
  refine ⟨m, hm, hwf, ?_⟩
  ext i j
  rw [Matrix.mul_apply, Cayley.toMat_apply]
  have h1 := hent i j i.isLt j.isLt 0 0
  have h2 := Cayley.Matrix.index_eq_atD hwf i.isLt j.isLt (0 : A)
  rw [h1] at h2
  have h3 : m.atD (i : Nat) (j : Nat) 0 =
      (List.range M).foldl (fun acc k => acc + l.atD (i : Nat) k 0 * r.atD k (j : Nat) 0) 0 :=
    (Option.some.injEq _ _).mp h2.symm
  show m.atD (i : Nat) (j : Nat) 0 = _
  rw [h3, foldl_range_add_eq_sum
    (fun k => l.atD (i : Nat) k 0 * r.atD k (j : Nat) 0) M,
    ← Fin.sum_univ_eq_sum_range (fun k => l.atD (i : Nat) k 0 * r.atD k (j : Nat) 0) M]
  apply Finset.sum_congr rfl
  intro k _
  rfl

/-! ### Inverse: bridge and correctness -/

theorem Cayley.inverse_eq_some {A : Type} [Field A] [DecidableEq A] {n : Nat}
    (m : Cayley.Matrix A (n + 1) (n + 1)) (hd : Cayley.detSpec (n + 1) m ≠ 0) :
    ∃ B, Cayley.inverse m = some B ∧ Cayley.WF B ∧
      Cayley.toMat B = (Cayley.detSpec (n + 1) m)⁻¹ • (Cayley.toMat m).adjugate := by
  simp only [Cayley.inverse]
  rw [if_neg hd]
  refine ⟨_, rfl, ⟨rfl, rfl⟩, ?_⟩
  ext i j
  rw [Cayley.toMat_apply, Matrix.smul_apply, smul_eq_mul]
  show ((List.range ((n + 1) * (n + 1))).map
      (fun k => Cayley.adjEntry m (k / (n + 1)) (k % (n + 1)) /
        Cayley.detSpec (n + 1) m)).getD ((i : Nat) * (n + 1) + (j : Nat)) 0 = _
  rw [List.getD_eq_getElem?_getD, List.getElem?_map,
    List.getElem?_range (grid_offset_lt i.isLt j.isLt), Option.map_some',
    grid_offset_div j.isLt, grid_offset_mod j.isLt, Option.getD_some,
    div_eq_mul_inv, mul_comm, Cayley.adjEntry_eq_adjugate]

theorem Cayley.eq_identity_of_toMat {A : Type} [Zero A] [One A] {n : Nat}
    (C : Cayley.Matrix A n n) (hC : Cayley.WF C) (h1 : Cayley.toMat C = 1) :
    C = Cayley.identityMatrix A n := by
  apply Cayley.Matrix.ext_struct _ hC.1 hC.2
  apply List.ext_getElem?
  intro k
  by_cases hk : k < n * n
  · have hn : 0 < n := by
      rcases Nat.eq_zero_or_pos n with h0 | h0
      · subst h0; simp at hk
      · exact h0
    have hx : k / n < n := Nat.div_lt_of_lt_mul hk
    have hy : k % n < n := Nat.mod_lt _ hn
    have hkey : k = k / n * n + k % n := by
      rw [Nat.mul_comm]
      exact (Nat.div_add_mod k n).symm
    have hoff : k / n * n + k % n < C.data.length := by
      rw [C.hlen]; exact grid_offset_lt hx hy
    have hCdata : C.data[k / n * n + k % n]? = some (C.at0 (k / n) (k % n)) := by
      rw [List.getElem?_eq_getElem hoff]
      unfold Cayley.Matrix.at0 Cayley.Matrix.atD
      rw [hC.2, List.getD_eq_getElem?_getD, List.getElem?_eq_getElem hoff, Option.getD_some]
    have hval : C.at0 (k / n) (k % n) = (if k / n = k % n then (1 : A) else 0) := by
      have := congrFun (congrFun h1 ⟨k / n, hx⟩) ⟨k % n, hy⟩
      rw [Cayley.toMat_apply] at this
      rw [this, Matrix.one_apply]
      exact if_congr (by rw [Fin.mk.injEq]) rfl rfl
    rw [hkey, hCdata, hval, Cayley.identityMatrix]
    exact (identityData_getElem A n hx hy).symm
  · rw [List.getElem?_eq_none (by rw [C.hlen]; omega),
      List.getElem?_eq_none]
    show (Cayley.identityMatrix A n).data.length ≤ k
    rw [show (Cayley.identityMatrix A n).data = identityData A n from rfl,
      identityData_length]
    omega

/-- C2: for every square matrix, `inverse` returns `none` exactly when the
determinant is the additive identity, and otherwise returns `some B` with
`A * B` equal to the identity matrix of the same size. -/
theorem c2_inverse_correct {A : Type} [Field A] [DecidableEq A] (n : Nat)
    (m : Cayley.Matrix A n n) (hm : Cayley.WF m) :
    (Cayley.inverse m = none ↔ Cayley.detSpec n m = 0) ∧
    (∀ B, Cayley.inverse m = some B →
      Cayley.mul m B = some (Cayley.identityMatrix A n)) := by
  rcases n with _ | n
  · constructor
    · constructor
      · intro h
        simp [Cayley.inverse, Cayley.detSpec] at h
      · intro h
        simp [Cayley.detSpec] at h
    · intro B hB
      simp only [Cayley.inverse, Cayley.detSpec] at hB
      rw [if_neg one_ne_zero] at hB
      obtain rfl : _ = B := (Option.some.injEq _ _).mp hB
      rfl
  · by_cases hd : Cayley.detSpec (n + 1) m = 0
    · constructor
      · simp only [Cayley.inverse]
        rw [if_pos hd]
        simp [hd]
      · intro B hB
        simp only [Cayley.inverse] at hB
        rw [if_pos hd] at hB
        exact Option.noConfusion hB
    · obtain ⟨B0, hB0, hwfB0, htoB0⟩ := Cayley.inverse_eq_some m hd
      constructor
      · rw [hB0]
        simp [hd]
      · intro B hB
        rw [hB0] at hB
        obtain rfl : B0 = B := (Option.some.injEq _ _).mp hB
        obtain ⟨C, hC, hwfC, htoC⟩ := Cayley.mul_toMat m B0 hm hwfB0
        have hone : Cayley.toMat C = 1 := by
          rw [htoC, htoB0, Matrix.mul_smul, Matrix.mul_adjugate, smul_smul,
            ← Cayley.detSpec_eq_det, inv_mul_cancel₀ hd, one_smul]
        rw [hC]
        exact congrArg some (Cayley.eq_identity_of_toMat C hwfC hone)

/-! ### Remaining helper lemmas -/

theorem Cayley.Matrix.index_eq_getElem? {T : Type} {N M : Nat} {m : Cayley.Matrix T N M}
    (hm : Cayley.WF m) {i j : Nat} (hi : i < N) (hj : j < M) :
    m.index i j = m.data[i * M + j]? := by
  simp [Cayley.Matrix.index, hm.1, hm.2, hi, hj]

theorem Cayley.transpose_eq_some {T : Type} [Zero T] {N M : Nat}
    (m : Cayley.Matrix T N M) (hm : Cayley.WF m) :
    ∃ mt, Cayley.transpose m = some mt ∧ Cayley.WF mt ∧
      ∀ x y, x < M → y < N → mt.index x y = m.index y x := by
  have hsome : ∀ x y, x < M → y < N → (m.index y x).isSome := by
    intro x y hx hy
    have hpos : 0 < m.data.length := by
      rw [m.hlen]; exact Nat.mul_pos (by omega) (by omega)
    rw [Cayley.Matrix.index_eq_atD hm hy hx (m.data.get ⟨0, hpos⟩)]
    rfl
  obtain ⟨d, hd⟩ := optGrid_isSome hsome
  refine ⟨⟨d, optGrid_length hd, M, N⟩, ?_, ⟨rfl, rfl⟩, ?_⟩
  · unfold Cayley.transpose
    split
    · rename_i heq
      rw [hd] at heq
      exact Option.noConfusion heq
    · rename_i d' heq
      rw [hd] at heq
      obtain rfl : d' = d := (Option.some.injEq _ _).mp heq.symm
      rfl
  · intro x y hx hy
    have hidx : (⟨d, optGrid_length hd, M, N⟩ : Cayley.Matrix T M N).index x y =
        d[x * N + y]? := by
      simp [Cayley.Matrix.index, hx, hy]
    rw [hidx, optGrid_entry hd hx hy]

/-! ### Claim theorems -/

/-- Concrete 3×3 input exhibiting the sign defect: the row-swap permutation
matrix `[[1,0,0],[0,0,1],[0,1,0]]`, whose determinant is `-1`. -/
def signBugInput : Cayley.Matrix ℤ 3 3 :=
  ⟨[1, 0, 0, 0, 0, 1, 0, 1, 0], rfl, 3, 3⟩

/-- C1: the source's size-3 determinant arm (`t1 + t2 + t3 - t4 + t5 + t6`)
disagrees with the standard rule-of-signs cofactor expansion
(`t1 + t2 + t3 - t4 - t5 - t6`) that the claim states: on the permutation
matrix `[[1,0,0],[0,0,1],[0,1,0]]` the code yields `1` while the standard
expansion yields `-1`. -/
theorem c1_det3_sign_bug :
    Cayley.determinant signBugInput = some 1 ∧
    Cayley.det3Standard signBugInput = some (-1) ∧
    Cayley.determinant signBugInput ≠ Cayley.det3Standard signBugInput := by
  refine ⟨?_, ?_, ?_⟩ <;> decide

/-- C3: for well-formed operands, `mul` succeeds and every output cell
`(x, y)` is the dot product over `i in [0, M)`, accumulated from the zero
value by a left fold in ascending order of `i` (canonical left-to-right
accumulation); the read-back defaults `dT`, `dQ` are irrelevant. -/
theorem c3_mul_dot_product {T Q R : Type} [HMul T Q R] [Add R] [Zero R] {N M P : Nat}
    (l : Cayley.Matrix T N M) (r : Cayley.Matrix Q M P)
    (hl : Cayley.WF l) (hr : Cayley.WF r) :
    ∃ m, Cayley.mul l r = some m ∧ Cayley.WF m ∧
      ∀ x y, x < N → y < P → ∀ (dT : T) (dQ : Q),
        m.index x y = some ((List.range M).foldl
          (fun acc i => acc + l.atD x i dT * r.atD i y dQ) 0) :=
  Cayley.mul_eq_some l r hl hr

/-- Left operand of the spec's concrete multiplication scenario. -/
def mulLeftExample : Cayley.Matrix ℤ 2 2 := ⟨[1, 2, 3, 4], rfl, 2, 2⟩

/-- Right operand of the spec's concrete multiplication scenario. -/
def mulRightExample : Cayley.Matrix ℤ 2 2 := ⟨[5, 6, 7, 8], rfl, 2, 2⟩

/-- Witness for C3 on the spec's concrete scenario
`[[1,2],[3,4]] * [[5,6],[7,8]] == [[19,22],[43,50]]`. -/
theorem c3_mul_dot_product_witness :
    (∃ m, Cayley.mul mulLeftExample mulRightExample = some m ∧ Cayley.WF m ∧
      ∀ x y, x < 2 → y < 2 → ∀ (dT : ℤ) (dQ : ℤ),
        m.index x y = some ((List.range 2).foldl
          (fun acc i => acc + mulLeftExample.atD x i dT * mulRightExample.atD i y dQ) 0)) ∧
    (Cayley.mul mulLeftExample mulRightExample).map Cayley.Matrix.data =
      some [19, 22, 43, 50] :=
  ⟨c3_mul_dot_product mulLeftExample mulRightExample (by decide) (by decide), by decide⟩

/-- C4 (amended): the fill/identity/generator constructors record
`rows = N`, `cols = M` on success and fail on any mismatched requested
shape, but the nested-sequence constructor records the *input's* shape
without checking it against `N`, `M`. -/
theorem c4_constructor_dims {T : Type} [Zero T] [One T] (N M r c : Nat) (f : Nat → Nat → T) :
    (∀ m, Cayley.zeroes T N M r c = some m → m.rows = N ∧ m.cols = M) ∧
    (¬(N = r ∧ M = c) → Cayley.zeroes T N M r c = none) ∧
    (∀ m, Cayley.ones T N M r c = some m → m.rows = N ∧ m.cols = M) ∧
    (¬(N = r ∧ M = c) → Cayley.ones T N M r c = none) ∧
    (∀ m, Cayley.identity T N r = some m → m.rows = N ∧ m.cols = N) ∧
    (r ≠ N → Cayley.identity T N r = none) ∧
    (∀ m, Cayley.fromClosure T N M r c f = some m → m.rows = N ∧ m.cols = M) ∧
    (¬(N = r ∧ M = c) → Cayley.fromClosure T N M r c f = none) ∧
    (∀ (value : List (List T)) m, Cayley.fromVec T N M value = some m →
      m.rows = value.length ∧ m.cols = (value.headD []).length) := by
  refine ⟨?_, ?_, ?_, ?_, ?_, ?_, ?_, ?_, ?_⟩
  · intro m hm
    unfold Cayley.zeroes at hm
    split at hm
    · rename_i hcond
      obtain rfl : _ = m := (Option.some.injEq _ _).mp hm
      exact ⟨hcond.1.symm, hcond.2.symm⟩
    · exact Option.noConfusion hm
  · intro h
    unfold Cayley.zeroes
    rw [if_neg h]
  · intro m hm
    unfold Cayley.ones at hm
    split at hm
    · rename_i hcond
      obtain rfl : _ = m := (Option.some.injEq _ _).mp hm
      exact ⟨hcond.1.symm, hcond.2.symm⟩
    · exact Option.noConfusion hm
  · intro h
    unfold Cayley.ones
    rw [if_neg h]
  · intro m hm
    unfold Cayley.identity at hm
    split at hm
    · rename_i hcond
      obtain rfl : _ = m := (Option.some.injEq _ _).mp hm
      exact ⟨hcond, hcond⟩
    · exact Option.noConfusion hm
  · intro h
    unfold Cayley.identity
    rw [if_neg h]
  · intro m hm
    unfold Cayley.fromClosure at hm
    split at hm
    · rename_i hcond
      obtain rfl : _ = m := (Option.some.injEq _ _).mp hm
      exact ⟨hcond.1.symm, hcond.2.symm⟩
    · exact Option.noConfusion hm
  · intro h
    unfold Cayley.fromClosure
    rw [if_neg h]
  · intro value m hm
    unfold Cayley.fromVec at hm
    split at hm
    · rcases value with _ | ⟨row0, rest⟩
      · exact Option.noConfusion hm
      · rcases row0 with _ | ⟨a, row0'⟩
        · exact Option.noConfusion hm
        · dsimp only at hm
          split at hm
          · obtain rfl : _ = m := (Option.some.injEq _ _).mp hm
            exact ⟨rfl, rfl⟩
          · exact Option.noConfusion hm
    · exact Option.noConfusion hm

/-- C4 counterexample: feeding a 1×4 nested sequence to the 2×2
nested-sequence constructor succeeds and records `rows = 1`, `cols = 4`,
contradicting the claim that every successfully constructed instance
records `rows = R` and `cols = C`. -/
theorem c4_counterexample :
    (Cayley.fromVec ℤ 2 2 [[1, 2, 3, 4]]).isSome ∧
    (Cayley.fromVec ℤ 2 2 [[1, 2, 3, 4]]).map Cayley.Matrix.rows = some 1 ∧
    (Cayley.fromVec ℤ 2 2 [[1, 2, 3, 4]]).map Cayley.Matrix.cols = some 4 := by
  refine ⟨?_, ?_, ?_⟩ <;> decide

/-- Witness for C4 at `N = M = 2`, `r = 3`, `c = 2`. -/
theorem c4_constructor_dims_witness :
    (∀ m, Cayley.zeroes ℤ 2 2 3 2 = some m → m.rows = 2 ∧ m.cols = 2) ∧
    (¬(2 = 3 ∧ 2 = 2) → Cayley.zeroes ℤ 2 2 3 2 = none) ∧
    (∀ m, Cayley.ones ℤ 2 2 3 2 = some m → m.rows = 2 ∧ m.cols = 2) ∧
    (¬(2 = 3 ∧ 2 = 2) → Cayley.ones ℤ 2 2 3 2 = none) ∧
    (∀ m, Cayley.identity ℤ 2 3 = some m → m.rows = 2 ∧ m.cols = 2) ∧
    (3 ≠ 2 → Cayley.identity ℤ 2 3 = none) ∧
    (∀ m, Cayley.fromClosure ℤ 2 2 3 2 (fun _ _ => 0) = some m →
      m.rows = 2 ∧ m.cols = 2) ∧
    (¬(2 = 3 ∧ 2 = 2) → Cayley.fromClosure ℤ 2 2 3 2 (fun _ _ => 0) = none) ∧
    (∀ (value : List (List ℤ)) m, Cayley.fromVec ℤ 2 2 value = some m →
      m.rows = value.length ∧ m.cols = (value.headD []).length) :=
  c4_constructor_dims 2 2 3 2 (fun _ _ => 0)

/-- C5: `submatrix` fails exactly when the excluded row or column index is
out of the recorded bounds, and otherwise yields the `(N-1, M-1)` matrix
whose retained cell `(x, y)` is the source cell
`(x + 1 if x >= r else x, y + 1 if y >= c else y)`. -/
theorem c5_submatrix_spec {T : Type} {N M : Nat} (m : Cayley.Matrix T N M)
    (hm : Cayley.WF m) (hN : 2 ≤ N) (hM : 2 ≤ M) (r c : Nat) :
    (m.rows ≤ r ∨ m.cols ≤ c → Cayley.submatrix T m r c = none) ∧
    (r < m.rows → c < m.cols → ∃ s, Cayley.submatrix T m r c = some s ∧ Cayley.WF s ∧
      ∀ x y, x < N - 1 → y < M - 1 →
        s.index x y = m.index (if r ≤ x then x + 1 else x) (if c ≤ y then y + 1 else y)) := by
  constructor
  · intro h
    unfold Cayley.submatrix
    by_cases hr : r < m.rows
    · rw [if_pos hr, if_neg (by omega)]
    · rw [if_neg hr]
  · intro hr hc
    have hsome : ∀ x y, x < N - 1 → y < M - 1 →
        (m.index (if r ≤ x then x + 1 else x) (if c ≤ y then y + 1 else y)).isSome := by
      intro x y hx hy
      have hrow : (if r ≤ x then x + 1 else x) < N := by split <;> omega
      have hcol : (if c ≤ y then y + 1 else y) < M := by split <;> omega
      have hpos : 0 < m.data.length := by
        rw [m.hlen]; exact Nat.mul_pos (by omega) (by omega)
      rw [Cayley.Matrix.index_eq_atD hm hrow hcol (m.data.get ⟨0, hpos⟩)]
      rfl
    obtain ⟨d, hd⟩ := optGrid_isSome hsome
    refine ⟨⟨d, optGrid_length hd, N - 1, M - 1⟩, ?_, ⟨rfl, rfl⟩, ?_⟩
    · unfold Cayley.submatrix
      rw [if_pos hr, if_pos hc]
      split
      · rename_i heq
        rw [hd] at heq
        exact Option.noConfusion heq
      · rename_i d' heq
        rw [hd] at heq
        obtain rfl : d' = d := (Option.some.injEq _ _).mp heq.symm
        rfl
    · intro x y hx hy
      have hidx : (⟨d, optGrid_length hd, N - 1, M - 1⟩ :
          Cayley.Matrix T (N - 1) (M - 1)).index x y = d[x * (M - 1) + y]? := by
        simp [Cayley.Matrix.index, hx, hy]
      rw [hidx, optGrid_entry hd hx hy]

/-- Concrete input for the C5 witness: the spec scenario
`Matrix::from([[1,2],[3,4]]).submatrix(0,0) == Matrix::from([[4]])`. -/
def submatrixExample : Cayley.Matrix ℤ 2 2 := ⟨[1, 2, 3, 4], rfl, 2, 2⟩

/-- Witness for C5 on the spec's concrete scenario. -/
theorem c5_submatrix_spec_witness :
    ((submatrixExample.rows ≤ 0 ∨ submatrixExample.cols ≤ 0 →
        Cayley.submatrix ℤ submatrixExample 0 0 = none) ∧
      (0 < submatrixExample.rows → 0 < submatrixExample.cols →
        ∃ s, Cayley.submatrix ℤ submatrixExample 0 0 = some s ∧ Cayley.WF s ∧
          ∀ x y, x < 2 - 1 → y < 2 - 1 →
            s.index x y = submatrixExample.index (if 0 ≤ x then x + 1 else x)
              (if 0 ≤ y then y + 1 else y))) ∧
    (Cayley.submatrix ℤ submatrixExample 0 0).map Cayley.Matrix.data = some [4] ∧
    (Cayley.submatrix ℤ submatrixExample 5 0).map Cayley.Matrix.data = none :=
  ⟨c5_submatrix_spec submatrixExample (by decide) (by decide) (by decide) 0 0,
   by decide, by decide⟩

/-- C6: read indexing fails exactly when the row is at least the recorded
row count or the column is at least the recorded column count, and
in-bounds reads return the element at linear row-major offset
`row * recorded_cols + col`. -/
theorem c6_index_spec {T : Type} {N M : Nat} (m : Cayley.Matrix T N M)
    (hm : Cayley.WF m) (i j : Nat) :
    (m.index i j = none ↔ m.rows ≤ i ∨ m.cols ≤ j) ∧
    (i < m.rows → j < m.cols → m.index i j = m.data[i * m.cols + j]? ∧
      (m.index i j).isSome) := by
  refine ⟨Cayley.Matrix.index_none_iff hm i j, ?_⟩
  intro hi hj
  obtain ⟨hr, hc⟩ := hm
  have heq : m.index i j = m.data[i * m.cols + j]? := by
    unfold Cayley.Matrix.index
    rw [if_pos hi, if_pos hj]
  refine ⟨heq, ?_⟩
  have hk : i * m.cols + j < m.data.length := by
    rw [m.hlen, hc]
    exact grid_offset_lt (by omega : i < N) (by omega : j < M)
  rw [heq, List.getElem?_eq_getElem hk]
  rfl

/-- Concrete matrix for the C6 witness (2×2, `[[1,2],[3,4]]`). -/
def indexExample : Cayley.Matrix ℤ 2 2 := ⟨[1, 2, 3, 4], rfl, 2, 2⟩

/-- Witness for C6: in-bounds and boundary reads on a concrete 2×2 matrix,
including the spec's boundary scenarios `(rows, 0)` and `(0, cols)`. -/
theorem c6_index_spec_witness :
    ((indexExample.index 1 0 = none ↔
        indexExample.rows ≤ 1 ∨ indexExample.cols ≤ 0) ∧
      (1 < indexExample.rows → 0 < indexExample.cols →
        indexExample.index 1 0 = indexExample.data[1 * indexExample.cols + 0]? ∧
        (indexExample.index 1 0).isSome)) ∧
    indexExample.index 2 0 = none ∧ indexExample.index 0 2 = none ∧
    indexExample.index 1 0 = some 3 :=
  ⟨c6_index_spec indexExample (by decide) 1 0, by decide, by decide, by decide⟩

/-- C7: write indexing touches the linear offset `row * recorded_cols + col`
without the row/column bounds assertions of read indexing; in particular
`(0, M)` is rejected by read indexing but accepted by write indexing on any
well-formed matrix with at least two rows. -/
theorem c7_indexMut_unchecked {T : Type} {N M : Nat} (m : Cayley.Matrix T N M) (v : T)
    (hm : Cayley.WF m) (hN : 2 ≤ N) (hM : 1 ≤ M) :
    (∀ i j, i * m.cols + j < m.data.length →
      ∃ m', m.indexMut i j v = some m' ∧
        m'.data = m.data.set (i * m.cols + j) v ∧
        m'.rows = m.rows ∧ m'.cols = m.cols) ∧
    m.index 0 M = none ∧
    (m.indexMut 0 M v).isSome := by
  obtain ⟨hr, hc⟩ := hm
  refine ⟨?_, ?_, ?_⟩
  · intro i j h
    unfold Cayley.Matrix.indexMut
    rw [if_pos h]
    exact ⟨_, rfl, rfl, rfl, rfl⟩
  · unfold Cayley.Matrix.index
    rw [if_pos (by omega : 0 < m.rows), if_neg (by omega : ¬ M < m.cols)]
  · unfold Cayley.Matrix.indexMut
    have hoff : 0 * m.cols + M < m.data.length := by
      rw [m.hlen, hc]
      calc 0 * M + M = M := by omega
      _ < 2 * M := by omega
      _ ≤ N * M := Nat.mul_le_mul_right M hN
    rw [if_pos hoff]
    rfl

/-- Concrete matrix for the C7 witness. -/
def indexMutExample : Cayley.Matrix ℤ 2 2 := ⟨[1, 2, 3, 4], rfl, 2, 2⟩

/-- Witness for C7: on `[[1,2],[3,4]]`, the pair `(0, 2)` is rejected by
read indexing but written by write indexing (it lands on offset 2, i.e.
element `(1, 0)`). -/
theorem c7_indexMut_unchecked_witness :
    ((∀ i j, i * indexMutExample.cols + j < indexMutExample.data.length →
      ∃ m', indexMutExample.indexMut i j (9 : ℤ) = some m' ∧
        m'.data = indexMutExample.data.set (i * indexMutExample.cols + j) 9 ∧
        m'.rows = indexMutExample.rows ∧ m'.cols = indexMutExample.cols) ∧
      indexMutExample.index 0 2 = none ∧
      (indexMutExample.indexMut 0 2 (9 : ℤ)).isSome) ∧
    (indexMutExample.indexMut 0 2 (9 : ℤ)).map Cayley.Matrix.data =
      some [1, 2, 9, 4] :=
  ⟨c7_indexMut_unchecked indexMutExample 9 (by decide) (by decide) (by decide),
   by decide⟩

/-- C8: on a well-formed matrix, `transpose` succeeds, swaps the
dimensions, every output cell `(x, y)` equals input cell `(y, x)`, and
applying `transpose` twice returns the original matrix. -/
theorem c8_transpose_involution {T : Type} [Zero T] {N M : Nat}
    (m : Cayley.Matrix T N M) (hm : Cayley.WF m) :
    ∃ mt, Cayley.transpose m = some mt ∧ Cayley.WF mt ∧
      (∀ x y, x < M → y < N → mt.index x y = m.index y x) ∧
      Cayley.transpose mt = some m := by
  obtain ⟨mt, hmt, hwf, hent⟩ := Cayley.transpose_eq_some m hm
  obtain ⟨mtt, hmtt, hwf2, hent2⟩ := Cayley.transpose_eq_some mt hwf
  refine ⟨mt, hmt, hwf, hent, ?_⟩
  rw [hmtt]
  have hdata : mtt = m := by
    apply Cayley.Matrix.ext_struct _ (hwf2.1.trans hm.1.symm) (hwf2.2.trans hm.2.symm)
    apply List.ext_getElem?
    intro k
    by_cases hk : k < N * M
    · have hM : 0 < M := by
        rcases Nat.eq_zero_or_pos M with h0 | h0
        · subst h0; simp at hk
        · exact h0
      have hx : k / M < N := Nat.div_lt_of_lt_mul (Nat.mul_comm N M ▸ hk)
      have hy : k % M < M := Nat.mod_lt _ hM
      have hkey : k = k / M * M + k % M := by
        rw [Nat.mul_comm]
        exact (Nat.div_add_mod k M).symm
      have h1 : mtt.index (k / M) (k % M) = mtt.data[k / M * M + k % M]? :=
        Cayley.Matrix.index_eq_getElem? hwf2 hx hy
      have h2 : m.index (k / M) (k % M) = m.data[k / M * M + k % M]? :=
        Cayley.Matrix.index_eq_getElem? hm hx hy
      rw [hkey, ← h1, ← h2, hent2 _ _ hx hy, hent _ _ hy hx]
    · rw [List.getElem?_eq_none (by rw [mtt.hlen]; omega),
        List.getElem?_eq_none (by rw [m.hlen]; omega)]
  rw [hdata]

/-- Concrete matrix for the C8 witness (2×3, `[[1,2,3],[4,5,6]]`). -/
def transposeExample : Cayley.Matrix ℤ 2 3 := ⟨[1, 2, 3, 4, 5, 6], rfl, 2, 3⟩

/-- Witness for C8 on the spec scenario
`Matrix::from([[1,2,3],[4,5,6]]).transpose() == Matrix::from([[1,4],[2,5],[3,6]])`. -/
theorem c8_transpose_involution_witness :
    (∃ mt, Cayley.transpose transposeExample = some mt ∧ Cayley.WF mt ∧
      (∀ x y, x < 3 → y < 2 → mt.index x y = transposeExample.index y x) ∧
      Cayley.transpose mt = some transposeExample) ∧
    (Cayley.transpose transposeExample).map Cayley.Matrix.data =
      some [1, 4, 2, 5, 3, 6] :=
  ⟨c8_transpose_involution transposeExample (by decide), by decide⟩

/-- C9: the compound (mutating) addition and subtraction forms update every
linear element `i` to `lhs[i] OP rhs[i]` over all `N * M` positions,
keeping the left operand's recorded counts, and are total (no dimension
validation); the binary forms fail on mismatched recorded row counts. -/
theorem c9_compound_unchecked {T Q : Type} [HAdd T Q T] [HSub T Q T] {N M : Nat}
    (l : Cayley.Matrix T N M) (r : Cayley.Matrix Q N M) :
    ((Cayley.addAssign l r).rows = l.rows ∧ (Cayley.addAssign l r).cols = l.cols ∧
      (Cayley.addAssign l r).data.length = N * M ∧
      ∀ i : Nat, (Cayley.addAssign l r).data[i]? =
        (l.data[i]?).bind (fun a => (r.data[i]?).map (fun b => a + b))) ∧
    ((Cayley.subAssign l r).rows = l.rows ∧ (Cayley.subAssign l r).cols = l.cols ∧
      (Cayley.subAssign l r).data.length = N * M ∧
      ∀ i : Nat, (Cayley.subAssign l r).data[i]? =
        (l.data[i]?).bind (fun a => (r.data[i]?).map (fun b => a - b))) ∧
    (l.rows ≠ r.rows → Cayley.add l r = none ∧ Cayley.sub l r = none) := by
  refine ⟨⟨rfl, rfl, (Cayley.addAssign l r).hlen, ?_⟩,
          ⟨rfl, rfl, (Cayley.subAssign l r).hlen, ?_⟩, ?_⟩
  · intro i
    show (List.zipWith (fun a b => a + b) l.data r.data)[i]? = _
    rw [List.getElem?_zipWith']
    rcases hL : l.data[i]? with _ | a <;> rcases hR : r.data[i]? with _ | b <;> simp
  · intro i
    show (List.zipWith (fun a b => a - b) l.data r.data)[i]? = _
    rw [List.getElem?_zipWith']
    rcases hL : l.data[i]? with _ | a <;> rcases hR : r.data[i]? with _ | b <;> simp
  · intro h
    constructor
    · unfold Cayley.add
      rw [if_neg h]
    · unfold Cayley.sub
      rw [if_neg h]

/-- A malformed-count operand for the C9 witness: constructed through the
nested-sequence constructor with a 1×4 input, so its recorded row count is
1 while the other operand records 2. -/
def mismatchedOperand : Cayley.Matrix ℤ 2 2 := ⟨[10, 20, 30, 40], rfl, 1, 4⟩

/-- Witness for C9: the compound forms still combine all four elements of a
`2 × 2` pair whose recorded row counts differ (2 versus 1), while the
binary forms fail on that same pair. -/
theorem c9_compound_unchecked_witness :
    (((Cayley.addAssign indexExample mismatchedOperand).rows = indexExample.rows ∧
      (Cayley.addAssign indexExample mismatchedOperand).cols = indexExample.cols ∧
      (Cayley.addAssign indexExample mismatchedOperand).data.length = 2 * 2 ∧
      ∀ i : Nat, (Cayley.addAssign indexExample mismatchedOperand).data[i]? =
        (indexExample.data[i]?).bind
          (fun a => (mismatchedOperand.data[i]?).map (fun b => a + b))) ∧
    ((Cayley.subAssign indexExample mismatchedOperand).rows = indexExample.rows ∧
      (Cayley.subAssign indexExample mismatchedOperand).cols = indexExample.cols ∧
      (Cayley.subAssign indexExample mismatchedOperand).data.length = 2 * 2 ∧
      ∀ i : Nat, (Cayley.subAssign indexExample mismatchedOperand).data[i]? =
        (indexExample.data[i]?).bind
          (fun a => (mismatchedOperand.data[i]?).map (fun b => a - b))) ∧
    (indexExample.rows ≠ mismatchedOperand.rows →
      Cayley.add indexExample mismatchedOperand = none ∧
      Cayley.sub indexExample mismatchedOperand = none)) ∧
    (Cayley.addAssign indexExample mismatchedOperand).data = [11, 22, 33, 44] :=
  ⟨c9_compound_unchecked indexExample mismatchedOperand, by decide⟩

/-- C10: for a nonempty compile-time shape, the nested-sequence constructor
fails fatally (deterministically) on the empty input and on any input whose
flattened element count is below `N * M`, instead of returning a matrix. -/
theorem c10_fromVec_insufficient (T : Type) (N M : Nat) (_h1 : 1 ≤ N * M) :
    Cayley.fromVec T N M [] = none ∧
    ∀ value : List (List T), value.flatten.length < N * M →
      Cayley.fromVec T N M value = none := by
  constructor
  · rfl
  · intro value hlen
    unfold Cayley.fromVec
    split
    · rcases value with _ | ⟨row0, rest⟩
      · rfl
      · rcases row0 with _ | ⟨a, row0'⟩
        · rfl
        · dsimp only
          rw [dif_neg (by omega)]
    · rfl

/-- Witness for C10 at `T = ℤ`, `N = M = 2`, exercised on the empty input
and on the undersized input `[[1, 2, 3]]`. -/
theorem c10_fromVec_insufficient_witness :
    (Cayley.fromVec ℤ 2 2 [] = none ∧
      ∀ value : List (List ℤ), value.flatten.length < 2 * 2 →
        Cayley.fromVec ℤ 2 2 value = none) ∧
    Cayley.fromVec ℤ 2 2 [[1, 2, 3]] = none :=
  ⟨c10_fromVec_insufficient ℤ 2 2 (by decide),
   (c10_fromVec_insufficient ℤ 2 2 (by decide)).2 [[1, 2, 3]] (by decide)⟩

instance : Fact (Nat.Prime 5) := ⟨by norm_num⟩

/-- Concrete invertible matrix for the C2 witness: `[[1,2],[3,4]]` over the
field `ZMod 5`, with determinant `3 ≠ 0`. -/
def inverseExample : Cayley.Matrix (ZMod 5) 2 2 := ⟨[1, 2, 3, 4], rfl, 2, 2⟩

/-- Singular matrix for the C2 witness: the spec's singular example
`[[1,2],[2,4]]`, with determinant `0`. -/
def singularExample : Cayley.Matrix (ZMod 5) 2 2 := ⟨[1, 2, 2, 4], rfl, 2, 2⟩

/-- Witness for C2: the invertible `[[1,2],[3,4]]` gets an inverse (and the
iff and product-identity conclusions hold for it), while the spec's
singular example `[[1,2],[2,4]]` gets `none`. -/
theorem c2_inverse_correct_witness :
    ((Cayley.inverse inverseExample = none ↔ Cayley.detSpec 2 inverseExample = 0) ∧
      (∀ B, Cayley.inverse inverseExample = some B →
        Cayley.mul inverseExample B = some (Cayley.identityMatrix (ZMod 5) 2))) ∧
    (Cayley.inverse inverseExample).isSome ∧
    (Cayley.inverse singularExample).isSome = false :=
  ⟨c2_inverse_correct 2 inverseExample (by decide), by decide, by decide⟩
